import Mathlib

set_option linter.unusedSectionVars false

/-
Verification of the interval_map container in src/interval_map.cpp.

The C++ class interval_map<K, V> holds a default value m_valBegin and a
std::map<K, V> m_map of breakpoints.  We embed the std::map as an
association list that is strictly sorted by key (the std::map invariant),
and translate assign (lines 27-70) and operator[] (lines 73-81) into pure
functions on that representation.  lower_bound splits the sorted list into
a takeWhile prefix and a dropWhile suffix; erase of an iterator range
drops the slice between the two split points.
-/

/-- State of interval_map<K, V> (lines 19-20 of the source): the default
value m_valBegin covering keys below every breakpoint, and the breakpoint
list m_map, sorted strictly by key. -/
structure interval_map (K V : Type) where
  m_valBegin : V
  m_map : List (K × V)
deriving DecidableEq

variable {K V : Type} [LinearOrder K] [DecidableEq V]

/-- The std::map ordering invariant: breakpoint keys strictly increase. -/
def sortedKeys (l : List (K × V)) : Prop :=
  List.Pairwise (fun p q => p.1 < q.1) l

instance sortedKeysDecidable (l : List (K × V)) : Decidable (sortedKeys l) :=
  List.instDecidablePairwise l

/-- The canonicalization loop of assign (lines 59-69): walking the list,
drop every entry whose value equals the value of the entry kept just
before it; prev is that previously kept value. -/
def destutterAux (prev : V) : List (K × V) → List (K × V)
  | [] => []
  | q :: rest => if q.2 = prev then destutterAux prev rest else q :: destutterAux q.2 rest

/-- The whole canonicalization pass of assign (lines 58-69).  The first
entry is always kept; it is never compared with m_valBegin. -/
def canonicalize : List (K × V) → List (K × V)
  | [] => []
  | p :: rest => p :: destutterAux p.2 rest

/-- The right-boundary step of assign (lines 53-56): when some breakpoint
survives at or beyond keyEnd and the first such breakpoint has key
strictly greater than keyEnd, a breakpoint at keyEnd is inserted carrying
that surviving breakpoint value (itHigh->second). -/
def withEnd (keyEnd : K) : List (K × V) → List (K × V)
  | [] => []
  | q :: rest => if keyEnd < q.1 then (keyEnd, q.2) :: q :: rest else q :: rest

/-- interval_map::assign (lines 27-70).  itLow = lower_bound keyBegin and
itHigh = lower_bound keyEnd split the sorted list as takeWhile (key <
keyBegin) and dropWhile (key < keyEnd); erase(itLow, itHigh) keeps
exactly those two parts.  When a breakpoint precedes keyBegin and its
value equals val (lines 37-45), the middle is erased and the function
returns at once; otherwise the middle is erased, (keyBegin, val) is
inserted, the right boundary is restored from itHigh, and the
canonicalization pass runs. -/
def interval_map.assign (m : interval_map K V) (keyBegin keyEnd : K) (val : V) :
    interval_map K V :=
  if keyEnd ≤ keyBegin then m
  else
    match (m.m_map.takeWhile fun q => decide (q.1 < keyBegin)).getLast? with
    | some p =>
      if p.2 = val then
        ⟨m.m_valBegin,
          (m.m_map.takeWhile fun q => decide (q.1 < keyBegin)) ++
            m.m_map.dropWhile fun q => decide (q.1 < keyEnd)⟩
      else
        ⟨m.m_valBegin,
          canonicalize ((m.m_map.takeWhile fun q => decide (q.1 < keyBegin)) ++
            (keyBegin, val) ::
              withEnd keyEnd (m.m_map.dropWhile fun q => decide (q.1 < keyEnd)))⟩
    | none =>
        ⟨m.m_valBegin,
          canonicalize ((m.m_map.takeWhile fun q => decide (q.1 < keyBegin)) ++
            (keyBegin, val) ::
              withEnd keyEnd (m.m_map.dropWhile fun q => decide (q.1 < keyEnd)))⟩

/-- Helper for operator[]: walk the sorted breakpoint list carrying the
value currently in force (m_valBegin before the first breakpoint), and
answer as soon as the query key falls short of the next breakpoint.  This
is upper_bound followed by the step back of lines 74-80. -/
def lookupFrom (d : V) : List (K × V) → K → V
  | [], _ => d
  | p :: rest, key => if key < p.1 then d else lookupFrom p.2 rest key

/-- interval_map::operator[] (lines 73-81): the value of the greatest
breakpoint with key at most the query key, or m_valBegin when the query
precedes every breakpoint. -/
def interval_map.lookup (m : interval_map K V) (key : K) : V :=
  lookupFrom m.m_valBegin m.m_map key

/-- The constructor (line 24): empty breakpoint list, given default. -/
def interval_map.ofDefault (d : V) : interval_map K V :=
  ⟨d, []⟩

/-- Canonical representation as the spec invariant I2 states it: no two
consecutive breakpoints carry equal values, and the first breakpoint does
not carry the default value (the conceptual pairing of the default with
the first breakpoint). -/
def canonicalRep (m : interval_map K V) : Prop :=
  List.Chain' (fun p q => p.2 ≠ q.2) m.m_map ∧
  ∀ p ∈ m.m_map.take 1, p.2 ≠ m.m_valBegin

/-- Value carried by the last breakpoint of a list, with d as fallback;
this is what lookupFrom has in force after walking the whole list. -/
def lastVal (d : V) : List (K × V) → V
  | [] => d
  | p :: rest => lastVal p.2 rest

theorem lookupFrom_cons (d : V) (p : K × V) (l : List (K × V)) (k : K) :
    lookupFrom d (p :: l) k = if k < p.1 then d else lookupFrom p.2 l k := rfl

theorem lookupFrom_all_gt (d : V) (l : List (K × V)) (k : K)
    (h : ∀ p ∈ l, k < p.1) : lookupFrom d l k = d := by
  cases l with
  | nil => rfl
  | cons p rest => rw [lookupFrom_cons, if_pos (h p (List.mem_cons_self p rest))]

theorem lookupFrom_append (d : V) (A B : List (K × V)) (k : K)
    (h : ∀ p ∈ A, p.1 ≤ k) :
    lookupFrom d (A ++ B) k = lookupFrom (lastVal d A) B k := by
  induction A generalizing d with
  | nil => rfl
  | cons p rest ih =>
    rw [List.cons_append, lookupFrom_cons,
      if_neg (not_lt.mpr (h p (List.mem_cons_self p rest)))]
    exact ih p.2 fun q hq => h q (List.mem_cons_of_mem p hq)

theorem lastVal_eq_getLast (d : V) :
    ∀ (l : List (K × V)) (p : K × V), l.getLast? = some p → lastVal d l = p.2 := by
  intro l
  induction l generalizing d with
  | nil => intro p h; simp at h
  | cons q rest ih =>
    intro p h
    cases rest with
    | nil =>
      simp at h
      rw [← h]
      rfl
    | cons r t =>
      rw [List.getLast?_cons_cons] at h
      exact ih q.2 p h

theorem sortedKeys_cons {p : K × V} {l : List (K × V)} (h : sortedKeys (p :: l)) :
    sortedKeys l ∧ ∀ q ∈ l, p.1 < q.1 := by
  unfold sortedKeys at h
  rw [List.pairwise_cons] at h
  exact ⟨h.2, h.1⟩

theorem mem_takeWhile_key_lt (b : K) :
    ∀ (l : List (K × V)), ∀ p ∈ l.takeWhile fun q => decide (q.1 < b), p.1 < b := by
  intro l
  induction l with
  | nil => intro p hp; simp at hp
  | cons q rest ih =>
    intro p hp
    by_cases hq : q.1 < b
    · rw [List.takeWhile_cons_of_pos (by simpa using hq)] at hp
      rcases List.mem_cons.mp hp with h1 | h2
      · rw [h1]; exact hq
      · exact ih p h2
    · rw [List.takeWhile_cons_of_neg (by simpa using hq)] at hp
      simp at hp

theorem mem_dropWhile_key_ge (e : K) :
    ∀ (l : List (K × V)), sortedKeys l →
      ∀ p ∈ l.dropWhile fun q => decide (q.1 < e), e ≤ p.1 := by
  intro l
  induction l with
  | nil => intro _ p hp; simp at hp
  | cons q rest ih =>
    intro hs p hp
    obtain ⟨hrest, hgt⟩ := sortedKeys_cons hs
    by_cases hq : q.1 < e
    · rw [List.dropWhile_cons_of_pos (by simpa using hq)] at hp
      exact ih hrest p hp
    · rw [List.dropWhile_cons_of_neg (by simpa using hq)] at hp
      rcases List.mem_cons.mp hp with h1 | h2
      · rw [h1]; exact not_lt.mp hq
      · exact le_trans (not_lt.mp hq) (le_of_lt (hgt p h2))

theorem takeWhile_eq_filter_key_lt (b : K) :
    ∀ (l : List (K × V)), sortedKeys l →
      (l.takeWhile fun q => decide (q.1 < b)) = l.filter fun q => decide (q.1 < b) := by
  intro l
  induction l with
  | nil => intro _; rfl
  | cons q rest ih =>
    intro hs
    obtain ⟨hrest, hgt⟩ := sortedKeys_cons hs
    by_cases hq : q.1 < b
    · rw [List.takeWhile_cons_of_pos (by simpa using hq),
        List.filter_cons_of_pos (by simpa using hq), ih hrest]
    · rw [List.takeWhile_cons_of_neg (by simpa using hq),
        List.filter_cons_of_neg (by simpa using hq)]
      symm
      rw [List.filter_eq_nil_iff]
      intro p hp
      simp only [decide_eq_true_eq]
      intro hpb
      exact hq (lt_trans (hgt p hp) hpb)

theorem dropWhile_eq_filter_key_ge (e : K) :
    ∀ (l : List (K × V)), sortedKeys l →
      (l.dropWhile fun q => decide (q.1 < e)) = l.filter fun q => decide (e ≤ q.1) := by
  intro l
  induction l with
  | nil => intro _; rfl
  | cons q rest ih =>
    intro hs
    obtain ⟨hrest, hgt⟩ := sortedKeys_cons hs
    by_cases hq : q.1 < e
    · rw [List.dropWhile_cons_of_pos (by simpa using hq),
        List.filter_cons_of_neg (by simp [not_le.mpr hq]), ih hrest]
    · rw [List.dropWhile_cons_of_neg (by simpa using hq),
        List.filter_cons_of_pos (by simp [not_lt.mp hq])]
      congr 1
      symm
      rw [List.filter_eq_self]
      intro p hp
      simpa using le_trans (not_lt.mp hq) (le_of_lt (hgt p hp))

theorem sortedKeys_takeWhile {l : List (K × V)} (hs : sortedKeys l)
    (f : K × V → Bool) : sortedKeys (l.takeWhile f) :=
  List.Pairwise.sublist (List.takeWhile_sublist f) hs

theorem sortedKeys_dropWhile {l : List (K × V)} (hs : sortedKeys l)
    (f : K × V → Bool) : sortedKeys (l.dropWhile f) :=
  List.Pairwise.sublist (List.dropWhile_sublist f) hs

theorem sorted_le_getLast :
    ∀ (l : List (K × V)), sortedKeys l → ∀ (p : K × V), l.getLast? = some p →
      ∀ q ∈ l, q.1 ≤ p.1 := by
  intro l
  induction l with
  | nil => intro _ p hp; simp at hp
  | cons x rest ih =>
    intro hs p hp q hq
    obtain ⟨hrest, hgt⟩ := sortedKeys_cons hs
    cases rest with
    | nil =>
      simp at hp
      simp at hq
      rw [hq, ← hp]
    | cons r t =>
      rw [List.getLast?_cons_cons] at hp
      have hpmem : p ∈ r :: t := List.mem_of_getLast?_eq_some hp
      rcases List.mem_cons.mp hq with h1 | h2
      · rw [h1]
        exact le_of_lt (hgt p hpmem)
      · exact ih hrest p hp q h2

theorem sorted_key_inj :
    ∀ (l : List (K × V)), sortedKeys l →
      ∀ p ∈ l, ∀ q ∈ l, p.1 = q.1 → p = q := by
  intro l
  induction l with
  | nil => intro _ p hp; simp at hp
  | cons x rest ih =>
    intro hs p hp q hq heq
    obtain ⟨hrest, hgt⟩ := sortedKeys_cons hs
    rcases List.mem_cons.mp hp with h1 | h2 <;> rcases List.mem_cons.mp hq with g1 | g2
    · rw [h1, g1]
    · exfalso
      have := hgt q g2
      rw [← h1, heq] at this
      exact lt_irrefl q.1 this
    · exfalso
      have := hgt p h2
      rw [← g1, ← heq] at this
      exact lt_irrefl p.1 this
    · exact ih hrest p h2 q g2 heq

theorem getLast_of_max (l : List (K × V)) (hs : sortedKeys l) (p : K × V)
    (hp : p ∈ l) (hmax : ∀ q ∈ l, q.1 ≤ p.1) : l.getLast? = some p := by
  cases hlast : l.getLast? with
  | none =>
    rw [List.getLast?_eq_none_iff] at hlast
    rw [hlast] at hp
    simp at hp
  | some r =>
    have hrmem : r ∈ l := List.mem_of_getLast?_eq_some hlast
    have h1 : p.1 ≤ r.1 := sorted_le_getLast l hs r hlast p hp
    have h2 : r.1 ≤ p.1 := hmax r hrmem
    rw [sorted_key_inj l hs r hrmem p hp (le_antisymm h2 h1)]

theorem destutterAux_lookupFrom (k : K) :
    ∀ (l : List (K × V)) (prev : V), sortedKeys l →
      lookupFrom prev (destutterAux prev l) k = lookupFrom prev l k := by
  intro l
  induction l with
  | nil => intro prev _; rfl
  | cons q rest ih =>
    intro prev hs
    obtain ⟨hrest, hgt⟩ := sortedKeys_cons hs
    by_cases hv : q.2 = prev
    · simp only [destutterAux, if_pos hv]
      rw [ih prev hrest, lookupFrom_cons]
      by_cases hk : k < q.1
      · rw [if_pos hk]
        exact lookupFrom_all_gt prev rest k fun p hp => lt_trans hk (hgt p hp)
      · rw [if_neg hk, hv]
    · simp only [destutterAux, if_neg hv]
      rw [lookupFrom_cons, lookupFrom_cons]
      by_cases hk : k < q.1
      · rw [if_pos hk, if_pos hk]
      · rw [if_neg hk, if_neg hk, ih q.2 hrest]

theorem canonicalize_lookupFrom (d : V) (k : K) (l : List (K × V))
    (hs : sortedKeys l) :
    lookupFrom d (canonicalize l) k = lookupFrom d l k := by
  cases l with
  | nil => rfl
  | cons p rest =>
    obtain ⟨hrest, _⟩ := sortedKeys_cons hs
    simp only [canonicalize]
    rw [lookupFrom_cons, lookupFrom_cons]
    by_cases hk : k < p.1
    · rw [if_pos hk, if_pos hk]
    · rw [if_neg hk, if_neg hk, destutterAux_lookupFrom k rest p.2 hrest]

theorem mem_withEnd_key_ge (e : K) (l : List (K × V))
    (hl : ∀ p ∈ l, e ≤ p.1) : ∀ p ∈ withEnd e l, e ≤ p.1 := by
  cases l with
  | nil => intro p hp; simp [withEnd] at hp
  | cons q rest =>
    intro p hp
    simp only [withEnd] at hp
    by_cases hq : e < q.1
    · rw [if_pos hq] at hp
      rcases List.mem_cons.mp hp with h1 | h2
      · rw [h1]
      · exact hl p h2
    · rw [if_neg hq] at hp
      exact hl p hp

theorem sortedKeys_withEnd (e : K) (l : List (K × V)) (hs : sortedKeys l)
    (hl : ∀ p ∈ l, e ≤ p.1) : sortedKeys (withEnd e l) := by
  cases l with
  | nil => exact hs
  | cons q rest =>
    simp only [withEnd]
    by_cases hq : e < q.1
    · rw [if_pos hq]
      unfold sortedKeys
      rw [List.pairwise_cons]
      constructor
      · intro p hp
        rcases List.mem_cons.mp hp with h1 | h2
        · rw [h1]; exact hq
        · obtain ⟨_, hgt⟩ := sortedKeys_cons hs
          exact lt_trans hq (hgt p h2)
      · exact hs
    · rw [if_neg hq]
      exact hs

theorem sortedKeys_mid (b e : K) (v : V) (tw dw : List (K × V))
    (htw : sortedKeys tw) (htwlt : ∀ p ∈ tw, p.1 < b)
    (hdw : sortedKeys dw) (hdwge : ∀ p ∈ dw, e ≤ p.1) (hbe : b < e) :
    sortedKeys (tw ++ (b, v) :: withEnd e dw) := by
  unfold sortedKeys
  rw [List.pairwise_append]
  refine ⟨htw, ?_, ?_⟩
  · rw [List.pairwise_cons]
    refine ⟨?_, sortedKeys_withEnd e dw hdw hdwge⟩
    intro p hp
    exact lt_of_lt_of_le hbe (mem_withEnd_key_ge e dw hdwge p hp)
  · intro p hp r hr
    rcases List.mem_cons.mp hr with h1 | h2
    · rw [h1]; exact htwlt p hp
    · exact lt_trans (htwlt p hp)
        (lt_of_lt_of_le hbe (mem_withEnd_key_ge e dw hdwge r h2))

theorem assign_early (m : interval_map K V) (b e : K) (v : V) (p : K × V)
    (hbe : b < e)
    (hlast : (m.m_map.takeWhile fun q => decide (q.1 < b)).getLast? = some p)
    (hpv : p.2 = v) :
    m.assign b e v = ⟨m.m_valBegin,
      (m.m_map.takeWhile fun q => decide (q.1 < b)) ++
        m.m_map.dropWhile fun q => decide (q.1 < e)⟩ := by
  unfold interval_map.assign
  rw [if_neg (not_le.mpr hbe), hlast]
  simp only [if_pos hpv]

theorem assign_norm_some (m : interval_map K V) (b e : K) (v : V) (p : K × V)
    (hbe : b < e)
    (hlast : (m.m_map.takeWhile fun q => decide (q.1 < b)).getLast? = some p)
    (hpv : p.2 ≠ v) :
    m.assign b e v = ⟨m.m_valBegin,
      canonicalize ((m.m_map.takeWhile fun q => decide (q.1 < b)) ++
        (b, v) :: withEnd e (m.m_map.dropWhile fun q => decide (q.1 < e)))⟩ := by
  unfold interval_map.assign
  rw [if_neg (not_le.mpr hbe), hlast]
  simp only [if_neg hpv]

theorem assign_norm_none (m : interval_map K V) (b e : K) (v : V)
    (hbe : b < e)
    (hlast : (m.m_map.takeWhile fun q => decide (q.1 < b)).getLast? = none) :
    m.assign b e v = ⟨m.m_valBegin,
      canonicalize ((m.m_map.takeWhile fun q => decide (q.1 < b)) ++
        (b, v) :: withEnd e (m.m_map.dropWhile fun q => decide (q.1 < e)))⟩ := by
  unfold interval_map.assign
  rw [if_neg (not_le.mpr hbe), hlast]

theorem lookupFrom_canonical_mid (d v : V) (b e k : K) (tw dw : List (K × V))
    (htw : sortedKeys tw) (htwlt : ∀ p ∈ tw, p.1 < b)
    (hdw : sortedKeys dw) (hdwge : ∀ p ∈ dw, e ≤ p.1)
    (hbe : b < e) (hk1 : b ≤ k) (hkgt : ∀ p ∈ withEnd e dw, k < p.1) :
    lookupFrom d (canonicalize (tw ++ (b, v) :: withEnd e dw)) k = v := by
  rw [canonicalize_lookupFrom d k _ (sortedKeys_mid b e v tw dw htw htwlt hdw hdwge hbe)]
  rw [lookupFrom_append d _ _ k fun p hp => le_trans (le_of_lt (htwlt p hp)) hk1]
  rw [lookupFrom_cons, if_neg (not_lt.mpr hk1)]
  exact lookupFrom_all_gt v _ k hkgt

theorem lookupFrom_greatest (k : K) :
    ∀ (l : List (K × V)) (d : V), sortedKeys l →
      ∀ p ∈ l, p.1 ≤ k → (∀ q ∈ l, q.1 ≤ k → q.1 ≤ p.1) →
        lookupFrom d l k = p.2 := by
  intro l
  induction l with
  | nil => intro d _ p hp; simp at hp
  | cons x rest ih =>
    intro d hs p hp hpk hmax
    obtain ⟨hrest, hgt⟩ := sortedKeys_cons hs
    rcases List.mem_cons.mp hp with h1 | h2
    · have hxk : x.1 ≤ k := by rw [← h1]; exact hpk
      rw [lookupFrom_cons, if_neg (not_lt.mpr hxk), h1]
      apply lookupFrom_all_gt
      intro q hq
      by_contra hkq
      have hqle := hmax q (List.mem_cons_of_mem x hq) (not_lt.mp hkq)
      rw [h1] at hqle
      exact absurd (hgt q hq) (not_lt.mpr hqle)
    · have hxk : x.1 ≤ k := le_trans (le_of_lt (hgt p h2)) hpk
      rw [lookupFrom_cons, if_neg (not_lt.mpr hxk)]
      exact ih x.2 hrest p h2 hpk fun q hq hqk =>
        hmax q (List.mem_cons_of_mem x hq) hqk

/-- Claim C2: for every sorted map state, every keyBegin < keyEnd, every
value v, and every key k with keyBegin ≤ k < keyEnd, lookup(k) returns v
after assign(keyBegin, keyEnd, v). -/
theorem assign_lookup_inside (m : interval_map K V) (b e : K) (v : V) (k : K)
    (hs : sortedKeys m.m_map) (hbe : b < e) (hk1 : b ≤ k) (hk2 : k < e) :
    (m.assign b e v).lookup k = v := by
  have htwlt : ∀ p ∈ m.m_map.takeWhile fun q => decide (q.1 < b), p.1 < b :=
    mem_takeWhile_key_lt b m.m_map
  have htw : sortedKeys (m.m_map.takeWhile fun q => decide (q.1 < b)) :=
    sortedKeys_takeWhile hs _
  have hdwge : ∀ p ∈ m.m_map.dropWhile fun q => decide (q.1 < e), e ≤ p.1 :=
    mem_dropWhile_key_ge e m.m_map hs
  have hdw : sortedKeys (m.m_map.dropWhile fun q => decide (q.1 < e)) :=
    sortedKeys_dropWhile hs _
  have hkgt : ∀ p ∈ withEnd e (m.m_map.dropWhile fun q => decide (q.1 < e)),
      k < p.1 :=
    fun p hp => lt_of_lt_of_le hk2 (mem_withEnd_key_ge e _ hdwge p hp)
  cases hlast : (m.m_map.takeWhile fun q => decide (q.1 < b)).getLast? with
  | none =>
    rw [assign_norm_none m b e v hbe hlast]
    exact lookupFrom_canonical_mid _ v b e k _ _ htw htwlt hdw hdwge hbe hk1 hkgt
  | some p =>
    by_cases hpv : p.2 = v
    · rw [assign_early m b e v p hbe hlast hpv]
      show lookupFrom m.m_valBegin _ k = v
      rw [lookupFrom_append _ _ _ k fun q hq =>
        le_trans (le_of_lt (htwlt q hq)) hk1]
      rw [lastVal_eq_getLast _ _ p hlast, hpv]
      exact lookupFrom_all_gt v _ k fun q hq =>
        lt_of_lt_of_le hk2 (hdwge q hq)
    · rw [assign_norm_some m b e v p hbe hlast hpv]
      exact lookupFrom_canonical_mid _ v b e k _ _ htw htwlt hdw hdwge hbe hk1 hkgt

theorem assign_lookup_inside_witness :
    sortedKeys (interval_map.ofDefault 'A' : interval_map Int Char).m_map ∧
    (1 : Int) < 3 ∧ (1 : Int) ≤ 2 ∧ (2 : Int) < 3 ∧
    ((interval_map.ofDefault 'A' : interval_map Int Char).assign 1 3 'B').lookup 2 = 'B' :=
  ⟨by decide, by decide, by decide, by decide,
    assign_lookup_inside (interval_map.ofDefault 'A') 1 3 'B' 2
      (by decide) (by decide) (by decide) (by decide)⟩

/-- Claim C5: for every sorted map state and every key k, lookup(k)
returns the value of the stored breakpoint with the greatest key at most
k, and returns the construction default when every stored breakpoint has
key above k (in particular on the empty breakpoint list); lookup is a
pure function of the state. -/
theorem lookup_greatest_le (m : interval_map K V) (k : K)
    (hs : sortedKeys m.m_map) :
    ((∀ p ∈ m.m_map, k < p.1) → m.lookup k = m.m_valBegin) ∧
    ∀ p ∈ m.m_map, p.1 ≤ k → (∀ q ∈ m.m_map, q.1 ≤ k → q.1 ≤ p.1) →
      m.lookup k = p.2 := by
  constructor
  · intro h
    exact lookupFrom_all_gt m.m_valBegin m.m_map k h
  · intro p hp hpk hmax
    exact lookupFrom_greatest k m.m_map m.m_valBegin hs p hp hpk hmax

theorem lookup_greatest_le_witness :
    sortedKeys (interval_map.mk 'A' [((1 : Int), 'B'), (3, 'C')]).m_map ∧
    (interval_map.mk 'A' [((1 : Int), 'B'), (3, 'C')]).lookup 2 = 'B' :=
  ⟨by decide,
    (lookup_greatest_le (interval_map.mk 'A' [((1 : Int), 'B'), (3, 'C')]) 2
      (by decide)).2 (1, 'B') (by decide) (by decide) (by decide)⟩

/-- Claim C7: for every map state and every keyBegin ≥ keyEnd, the call
assign(keyBegin, keyEnd, v) is a no-op, not an error: the state is
unchanged and so is every lookup. -/
theorem assign_empty_interval (m : interval_map K V) (b e : K) (v : V)
    (h : e ≤ b) :
    m.assign b e v = m ∧ ∀ k, (m.assign b e v).lookup k = m.lookup k := by
  have heq : m.assign b e v = m := by
    unfold interval_map.assign
    rw [if_pos h]
  exact ⟨heq, fun k => by rw [heq]⟩

theorem assign_empty_interval_witness :
    (1 : Int) ≤ 3 ∧
    (interval_map.ofDefault 'A' : interval_map Int Char).assign 3 1 'X' =
      interval_map.ofDefault 'A' :=
  ⟨by decide,
    (assign_empty_interval (interval_map.ofDefault 'A') 3 1 'X' (by decide)).1⟩

/-- Claim C9: when some breakpoint precedes keyBegin and the greatest such
breakpoint carries val, assign(keyBegin, keyEnd, val) with keyBegin <
keyEnd erases exactly the breakpoints with key in the interval and inserts
nothing, in particular nothing at keyEnd: the state keeps the breakpoints
below keyBegin followed by those at or beyond keyEnd, and val extends
rightward up to the first surviving breakpoint at or beyond keyEnd. -/
theorem assign_merge_into_left (m : interval_map K V) (b e : K) (v : V)
    (hs : sortedKeys m.m_map) (hbe : b < e) (p : K × V)
    (hpm : p ∈ m.m_map) (hpb : p.1 < b)
    (hmax : ∀ q ∈ m.m_map, q.1 < b → q.1 ≤ p.1) (hpv : p.2 = v) :
    (m.assign b e v).m_valBegin = m.m_valBegin ∧
    (m.assign b e v).m_map =
      (m.m_map.filter fun q => decide (q.1 < b)) ++
        (m.m_map.filter fun q => decide (e ≤ q.1)) ∧
    ∀ k, b ≤ k → (∀ q ∈ m.m_map, e ≤ q.1 → k < q.1) →
      (m.assign b e v).lookup k = v := by
  have htweq := takeWhile_eq_filter_key_lt b m.m_map hs
  have htw : sortedKeys (m.m_map.takeWhile fun q => decide (q.1 < b)) :=
    sortedKeys_takeWhile hs _
  have hptw : p ∈ m.m_map.takeWhile fun q => decide (q.1 < b) := by
    rw [htweq]
    exact List.mem_filter.mpr ⟨hpm, by simpa using hpb⟩
  have hmaxtw : ∀ q ∈ m.m_map.takeWhile fun q => decide (q.1 < b), q.1 ≤ p.1 :=
    fun q hq => hmax q ((List.takeWhile_sublist _).subset hq)
      (mem_takeWhile_key_lt b m.m_map q hq)
  have hlast : (m.m_map.takeWhile fun q => decide (q.1 < b)).getLast? = some p :=
    getLast_of_max _ htw p hptw hmaxtw
  rw [assign_early m b e v p hbe hlast hpv]
  refine ⟨rfl, ?_, ?_⟩
  · rw [← htweq, ← dropWhile_eq_filter_key_ge e m.m_map hs]
  · intro k hk hsurv
    show lookupFrom m.m_valBegin _ k = v
    rw [lookupFrom_append _ _ _ k fun q hq =>
      le_trans (le_of_lt (mem_takeWhile_key_lt b m.m_map q hq)) hk]
    rw [lastVal_eq_getLast _ _ p hlast, hpv]
    exact lookupFrom_all_gt v _ k fun q hq =>
      hsurv q ((List.dropWhile_sublist _).subset hq)
        (mem_dropWhile_key_ge e m.m_map hs q hq)

theorem assign_merge_into_left_witness :
    sortedKeys (interval_map.mk 'A' [((0 : Int), 'B'), (5, 'C')]).m_map ∧
    ((interval_map.mk 'A' [((0 : Int), 'B'), (5, 'C')]).assign 2 4 'B').m_map =
      [((0 : Int), 'B'), (5, 'C')] ∧
    ((interval_map.mk 'A' [((0 : Int), 'B'), (5, 'C')]).assign 2 4 'B').lookup 3 = 'B' :=
  ⟨by decide,
    by
      have h := (assign_merge_into_left
        (interval_map.mk 'A' [((0 : Int), 'B'), (5, 'C')]) 2 4 'B'
        (by decide) (by decide) (0, 'B') (by decide) (by decide)
        (by decide) (by decide)).2.1
      rw [h]
      decide,
    (assign_merge_into_left
      (interval_map.mk 'A' [((0 : Int), 'B'), (5, 'C')]) 2 4 'B'
      (by decide) (by decide) (0, 'B') (by decide) (by decide)
      (by decide) (by decide)).2.2 3 (by decide) (by decide)⟩

/-- Claim C10: when no breakpoint lies at or beyond keyEnd, and no
breakpoint strictly below keyBegin is greatest with value val, every key
from keyBegin on (including keys at or beyond keyEnd) reads val after
assign(keyBegin, keyEnd, val) with keyBegin < keyEnd, because the right
boundary is never restored. -/
theorem assign_runs_off_end (m : interval_map K V) (b e : K) (v : V)
    (hs : sortedKeys m.m_map) (hbe : b < e)
    (hall : ∀ q ∈ m.m_map, q.1 < e)
    (hlow : ∀ p ∈ m.m_map, p.1 < b →
      (∀ q ∈ m.m_map, q.1 < b → q.1 ≤ p.1) → p.2 ≠ v) :
    ∀ k, b ≤ k → (m.assign b e v).lookup k = v := by
  intro k hk
  have htw : sortedKeys (m.m_map.takeWhile fun q => decide (q.1 < b)) :=
    sortedKeys_takeWhile hs _
  have hdw : sortedKeys (m.m_map.dropWhile fun q => decide (q.1 < e)) :=
    sortedKeys_dropWhile hs _
  have hdwge : ∀ p ∈ m.m_map.dropWhile fun q => decide (q.1 < e), e ≤ p.1 :=
    mem_dropWhile_key_ge e m.m_map hs
  have hdwnil : (m.m_map.dropWhile fun q => decide (q.1 < e)) = [] := by
    rw [dropWhile_eq_filter_key_ge e m.m_map hs, List.filter_eq_nil_iff]
    intro q hq
    simpa using not_le.mpr (hall q hq)
  have hkgt : ∀ p ∈ withEnd e (m.m_map.dropWhile fun q => decide (q.1 < e)),
      k < p.1 := by
    rw [hdwnil]
    intro p hp
    simp [withEnd] at hp
  cases hlast : (m.m_map.takeWhile fun q => decide (q.1 < b)).getLast? with
  | none =>
    rw [assign_norm_none m b e v hbe hlast]
    exact lookupFrom_canonical_mid _ v b e k _ _ htw
      (mem_takeWhile_key_lt b m.m_map) hdw hdwge hbe hk hkgt
  | some p =>
    have hptw : p ∈ m.m_map.takeWhile fun q => decide (q.1 < b) :=
      List.mem_of_getLast?_eq_some hlast
    have hpm : p ∈ m.m_map := (List.takeWhile_sublist _).subset hptw
    have hpb : p.1 < b := mem_takeWhile_key_lt b m.m_map p hptw
    have hpmax : ∀ q ∈ m.m_map, q.1 < b → q.1 ≤ p.1 := by
      intro q hq hqb
      have hqtw : q ∈ m.m_map.takeWhile fun r => decide (r.1 < b) := by
        rw [takeWhile_eq_filter_key_lt b m.m_map hs]
        exact List.mem_filter.mpr ⟨hq, by simpa using hqb⟩
      exact sorted_le_getLast _ htw p hlast q hqtw
    have hpv : p.2 ≠ v := hlow p hpm hpb hpmax
    rw [assign_norm_some m b e v p hbe hlast hpv]
    exact lookupFrom_canonical_mid _ v b e k _ _ htw
      (mem_takeWhile_key_lt b m.m_map) hdw hdwge hbe hk hkgt

theorem assign_runs_off_end_witness :
    sortedKeys (interval_map.mk 'A' [((0 : Int), 'B')]).m_map ∧
    ((interval_map.mk 'A' [((0 : Int), 'B')]).assign 2 9 'C').lookup 100 = 'C' :=
  ⟨by decide,
    assign_runs_off_end (interval_map.mk 'A' [((0 : Int), 'B')]) 2 9 'C'
      (by decide) (by decide) (by decide) (by decide) 100 (by decide)⟩

/-- Claim C1 fails on the code: on a fresh map with default 'A', the call
assign(1, 3, 'B') changes lookup(3) from 'A' to 'B' although key 3 lies
outside the half-open interval, because assign restores no right boundary
when no stored breakpoint lies at or beyond keyEnd.  The source test
itself asserts imap[3] == 'A' (line 98) and fails. -/
theorem assign_changes_outside_interval :
    (interval_map.ofDefault 'A' : interval_map Int Char).lookup 3 = 'A' ∧
    ((interval_map.ofDefault 'A' : interval_map Int Char).assign 1 3 'B').lookup 3
      = 'B' := by
  decide

/-- Claim C3 fails on the code: in the test scenario of IntervalMapTest
(lines 85-104), after assign(1, 3, 'B') and assign(5, 7, 'C') on a fresh
map with default 'A', the code stores only the breakpoints (1, 'B') and
(5, 'C'), so lookup returns 'B' at keys 3 and 4 and 'C' at key 7 where
the claim and the test assertions expect 'A'. -/
theorem test_scenario_fails :
    (((interval_map.ofDefault 'A' : interval_map Int Char).assign 1 3 'B').assign
        5 7 'C').m_map = [(1, 'B'), (5, 'C')] ∧
    (((interval_map.ofDefault 'A' : interval_map Int Char).assign 1 3 'B').assign
        5 7 'C').lookup 0 = 'A' ∧
    (((interval_map.ofDefault 'A' : interval_map Int Char).assign 1 3 'B').assign
        5 7 'C').lookup 1 = 'B' ∧
    (((interval_map.ofDefault 'A' : interval_map Int Char).assign 1 3 'B').assign
        5 7 'C').lookup 2 = 'B' ∧
    (((interval_map.ofDefault 'A' : interval_map Int Char).assign 1 3 'B').assign
        5 7 'C').lookup 3 = 'B' ∧
    (((interval_map.ofDefault 'A' : interval_map Int Char).assign 1 3 'B').assign
        5 7 'C').lookup 4 = 'B' ∧
    (((interval_map.ofDefault 'A' : interval_map Int Char).assign 1 3 'B').assign
        5 7 'C').lookup 5 = 'C' ∧
    (((interval_map.ofDefault 'A' : interval_map Int Char).assign 1 3 'B').assign
        5 7 'C').lookup 6 = 'C' ∧
    (((interval_map.ofDefault 'A' : interval_map Int Char).assign 1 3 'B').assign
        5 7 'C').lookup 7 = 'C' := by
  decide

/-- Claim C4 fails on the code: one call assign(1, 3, 'A') on a fresh map
with default 'A' stores the breakpoint list [(1, 'A')], whose first
breakpoint carries the default value, so the representation is not
canonical.  The canonicalization pass of lines 58-69 never compares the
first breakpoint with m_valBegin. -/
theorem assign_breaks_canonical_form :
    ((interval_map.ofDefault 'A' : interval_map Int Char).assign 1 3 'A').m_map
      = [(1, 'A')] ∧
    ¬ canonicalRep ((interval_map.ofDefault 'A' : interval_map Int Char).assign
      1 3 'A') := by
  constructor
  · decide
  · intro h
    have := h.2 (1, 'A') (by decide)
    exact this rfl

/-- Claim C6 fails on the code: on a fresh map with default 'A', before
assign(1, 3, 'B') the value at key 3 is 'A', which differs from 'B', yet
the call inserts no breakpoint at keyEnd = 3: lines 53-56 only create a
right boundary when some pre-existing breakpoint lies strictly beyond
keyEnd, and even then they copy that breakpoint value rather than the
pre-call value at keyEnd. -/
theorem assign_missing_end_breakpoint :
    (interval_map.ofDefault 'A' : interval_map Int Char).lookup 3 = 'A' ∧
    ((interval_map.ofDefault 'A' : interval_map Int Char).assign 1 3 'B').m_map
      = [(1, 'B')] := by
  decide

/-- Claim C8 fails on the code: assign is not idempotent.  Starting from a
fresh map with default 'A', after assign(5, 9, 'B') and assign(7, 9, 'C'),
a first assign(1, 3, 'B') leaves breakpoints [(1, 'B'), (7, 'C')] while
repeating the identical call leaves [(1, 'B'), (3, 'C')]: the repeat
erases the breakpoint at 1, reinserts it, and then restores a right
boundary at 3 copied from the breakpoint at 7, so lookup(4) changes from
'B' to 'C'. -/
theorem assign_not_idempotent :
    ((((interval_map.ofDefault 'A' : interval_map Int Char).assign 5 9 'B').assign
        7 9 'C').assign 1 3 'B').m_map = [(1, 'B'), (7, 'C')] ∧
    (((((interval_map.ofDefault 'A' : interval_map Int Char).assign 5 9 'B').assign
        7 9 'C').assign 1 3 'B').assign 1 3 'B').m_map = [(1, 'B'), (3, 'C')] ∧
    ((((interval_map.ofDefault 'A' : interval_map Int Char).assign 5 9 'B').assign
        7 9 'C').assign 1 3 'B').lookup 4 = 'B' ∧
    (((((interval_map.ofDefault 'A' : interval_map Int Char).assign 5 9 'B').assign
        7 9 'C').assign 1 3 'B').assign 1 3 'B').lookup 4 = 'C' := by
  decide
